import Mathlib

/-!
The program git-version: version model, latest-version resolver, bump commands and
annotation session.

A shallow embedding of `main.go`.

* Go strings are lists of characters (`GoString`).  Every character the program inspects
  (`.`, `-`, `v`, `+`, the decimal digits) is ASCII, so splitting and trimming on
  characters agrees with Go's byte-wise operations.
* Go's `int` is taken to be 64 bits wide: values are integers in `[minInt, maxInt]`,
  and `+` wraps around (`wrapInt`).
* The git backend (`go-git`) is an external collaborator: it enters as a record of
  outcomes. Of the text input (`bubbles/textinput`), `Value` and `SetValue` are given as
  the library has them (sanitizer and character limit); its key handling `Update` is a
  parameter.
-/

namespace GitVersion

/-- Go strings. -/
abbrev GoString := List Char

/-! ## Machine integers -/

/-- Largest value of Go's `int` (64 bits). -/
def maxInt : Int := 9223372036854775807

/-- Smallest value of Go's `int` (64 bits). -/
def minInt : Int := -9223372036854775808

/-- Two's-complement wrap-around of an integer into the range of `int`. -/
def wrapInt (x : Int) : Int := (x + 9223372036854775808) % 18446744073709551616 - 9223372036854775808

/-- Go's `a + b` on `int`. -/
def addInt (a b : Int) : Int := wrapInt (a + b)

/-! ## `strings` and `strconv` -/

/-- `strings.Split(s, sep)` for a one-character separator: the pieces of `s` between the
occurrences of `sep`; there is always at least one piece. -/
def Split (s : GoString) (sep : Char) : List GoString :=
  match s with
  | [] => [[]]
  | c :: cs =>
    if c = sep then [] :: Split cs sep
    else
      match Split cs sep with
      | [] => [[c]]
      | piece :: pieces => (c :: piece) :: pieces

/-- `strings.TrimPrefix(s, prefix)` for a one-character prefix. -/
def TrimPrefix (s : GoString) (p : Char) : GoString :=
  match s with
  | [] => []
  | c :: cs => if c = p then cs else c :: cs

/-- The two errors of `strconv`. -/
inductive NumError where
  | ErrSyntax
  | ErrRange
  deriving DecidableEq, Repr

/-- The result of a Go call returning `(T, error)`. -/
inductive Result (ε α : Type) where
  | ok (a : α)
  | error (e : ε)
  deriving DecidableEq, Repr

/-- The digit loop of `strconv.ParseUint(s, 10, 64)`: `n` is the value read so far. -/
def ParseUintLoop (s : GoString) (n : Nat) : Result NumError Nat :=
  match s with
  | [] => .ok n
  | c :: cs =>
    if '0' ≤ c ∧ c ≤ '9' then
      let d := c.toNat - '0'.toNat
      -- cutoff = maxUint64/10 + 1: n*10 would overflow
      if n ≥ 1844674407370955162 then .error .ErrRange
      else
        let n10 := (n * 10) % 18446744073709551616
        let n1 := (n10 + d) % 18446744073709551616
        if n1 < n10 ∨ n1 > 18446744073709551615 then .error .ErrRange
        else ParseUintLoop cs n1
    else .error .ErrSyntax

/-- `strconv.ParseUint(s, 10, 64)`. -/
def ParseUint (s : GoString) : Result NumError Nat :=
  match s with
  | [] => .error .ErrSyntax
  | _ :: _ => ParseUintLoop s 0

/-- `strconv.Atoi(s)`, that is `ParseInt(s, 10, 0)` converted to `int`: an optional sign,
then decimal digits, with a value in the range of `int`. -/
def Atoi (s : GoString) : Result NumError Int :=
  match s with
  | [] => .error .ErrSyntax
  | c :: cs =>
    let neg := c = '-'
    let body := if c = '+' ∨ c = '-' then cs else c :: cs
    match ParseUint body with
    | .error e => .error e
    | .ok un =>
      -- cutoff = 1 << 63
      if ¬ neg ∧ un ≥ 9223372036854775808 then .error .ErrRange
      else if neg ∧ un > 9223372036854775808 then .error .ErrRange
      else if neg then .ok (-(un : Int)) else .ok (un : Int)

/-- The digits of `n`, most significant first, prepended to `acc` (the division loop of
`strconv.FormatInt`); `fuel` bounds the number of digits. -/
def formatBits (fuel n : Nat) (acc : GoString) : GoString :=
  match fuel with
  | 0 => acc
  | fuel + 1 =>
    let acc := Nat.digitChar (n % 10) :: acc
    if n / 10 = 0 then acc else formatBits fuel (n / 10) acc

/-- The verb `%d` of `fmt.Sprintf` on an `int`. -/
def fmtInt (x : Int) : GoString :=
  if x < 0 then '-' :: formatBits (x.natAbs + 1) x.natAbs []
  else formatBits (x.natAbs + 1) x.natAbs []

/-! ## The version model -/

/-- The struct `version`. -/
structure version where
  Major : Int
  Minor : Int
  Patch : Int
  Label : GoString
  deriving DecidableEq, Repr

/-- `version.String`. -/
def version.String (v : version) : GoString :=
  if v.Label ≠ [] then
    -- "v%d.%d.%d-%s"
    ['v'] ++ fmtInt v.Major ++ ['.'] ++ fmtInt v.Minor ++ ['.'] ++ fmtInt v.Patch ++ ['-'] ++ v.Label
  else
    -- "v%d.%d.%d"
    ['v'] ++ fmtInt v.Major ++ ['.'] ++ fmtInt v.Minor ++ ['.'] ++ fmtInt v.Patch

/-- `version.isGreaterThan`. -/
def version.isGreaterThan (v other : version) : Bool :=
  if v.Major > other.Major then true
  else if v.Major = other.Major ∧ v.Minor > other.Minor then true
  else if v.Major = other.Major ∧ v.Minor = other.Minor ∧ v.Patch > other.Patch then true
  else false

/-! ## The git backend -/

/-- Errors of the program: the three wrapped `strconv` errors of the tag-name parse, and
the errors reported by the git backend (kept abstract as a code). -/
inductive Error where
  | parseMajor (e : NumError)
  | parseMinor (e : NumError)
  | parsePatch (e : NumError)
  | backend (code : Nat)
  deriving DecidableEq, Repr

/-- What `repo.TagObject(ref.Hash())` answers for one tag reference: a tag object (an
annotated tag, of which only `Name` is read), `plumbing.ErrObjectNotFound` (a lightweight
tag), or some other error. -/
inductive TagObjectResult where
  | object (Name : GoString)
  | ErrObjectNotFound
  | otherErr (e : Error)
  deriving DecidableEq, Repr

/-- Commit and object hashes. -/
abbrev Hash := Nat

/-- The repository handle, as far as the program observes it. `Tags` is the answer of
`repo.Tags()`: the tag references in enumeration order, each with the answer of
`repo.TagObject` on its hash. -/
structure Repository where
  Tags : Result Error (List TagObjectResult)
  Head : Result Error Hash
  Validate : Hash → GoString → Option Error
  CreateTag : GoString → Hash → GoString → Option Error
  CommitMessage : Hash → Result Error GoString

/-! ## The latest-version resolver -/

/-- The tag-name parse written inline in the callback of `getLatestVersion`: `.ok none`
when the name does not have exactly three dot-separated parts (nothing is parsed),
`.ok (some v)` for the parsed version, `.error` when a number does not parse. -/
def parseTagName (Name : GoString) : Result Error (Option version) :=
  match Split Name '.' with
  | [p0, p1, p2] =>
    match Atoi (TrimPrefix p0 'v') with
    | .error e => .error (.parseMajor e)
    | .ok mjr =>
      match Atoi p1 with
      | .error e => .error (.parseMinor e)
      | .ok mnr =>
        let patchParts := Split p2 '-'
        match Atoi (patchParts.getD 0 []) with
        | .error e => .error (.parsePatch e)
        | .ok patch =>
          let lbl := if patchParts.length > 1 then patchParts.getD 1 [] else []
          .ok (some { Major := mjr, Minor := mnr, Patch := patch, Label := lbl })
  | _ => .ok none

/-- The callback passed to `iter.ForEach` in `getLatestVersion`: the new value of
`currentVersion`, or the error the callback returns. -/
def tagCallback (currentVersion : version) (ref : TagObjectResult) : Result Error version :=
  match ref with
  | .object Name =>
    match parseTagName Name with
    | .error e => .error e
    | .ok none => .ok currentVersion
    | .ok (some v) => if v.isGreaterThan currentVersion then .ok v else .ok currentVersion
  | .ErrObjectNotFound => .ok currentVersion
  | .otherErr e => .error e

/-- The method `iter.ForEach` with that callback: the references are visited in order and
the first error the callback returns stops the iteration and is returned. -/
def ForEach (refs : List TagObjectResult) (currentVersion : version) : Result Error version :=
  match refs with
  | [] => .ok currentVersion
  | ref :: rest =>
    match tagCallback currentVersion ref with
    | .error e => .error e
    | .ok v => ForEach rest v

/-- The function `getLatestVersion`. -/
def getLatestVersion (repo : Repository) : Result Error version :=
  match repo.Tags with
  | .error e => .error e
  | .ok refs => ForEach refs { Major := 0, Minor := 0, Patch := 0, Label := [] }

/-- The function `getLastCommitMessage`. -/
def getLastCommitMessage (repo : Repository) : Result Error GoString :=
  match repo.Head with
  | .error e => .error e
  | .ok h => repo.CommitMessage h

/-! ## The bump commands -/

/-- The `newVersion` built by `patchVersionCmd` from the latest version and the `--label` flag. -/
def patchNewVersion (currentVersion : version) (label : GoString) : version :=
  { Major := currentVersion.Major, Minor := currentVersion.Minor,
    Patch := addInt currentVersion.Patch 1, Label := label }

/-- The `newVersion` built by `minorVersionCmd`. -/
def minorNewVersion (currentVersion : version) : version :=
  { Major := currentVersion.Major, Minor := addInt currentVersion.Minor 1, Patch := 0, Label := [] }

/-- The `newVersion` built by `majorVersionCmd`. -/
def majorNewVersion (currentVersion : version) : version :=
  { Major := addInt currentVersion.Major 1, Minor := 0, Patch := 0, Label := [] }

/-- The command `patchVersionCmd` up to the start of the interactive session. -/
def patchVersionCmd (repo : Repository) (label : GoString) : Result Error version :=
  match getLatestVersion repo with
  | .error e => .error e
  | .ok currentVersion => .ok (patchNewVersion currentVersion label)

/-- The command `minorVersionCmd` up to the start of the interactive session. -/
def minorVersionCmd (repo : Repository) : Result Error version :=
  match getLatestVersion repo with
  | .error e => .error e
  | .ok currentVersion => .ok (minorNewVersion currentVersion)

/-- The command `majorVersionCmd` up to the start of the interactive session. -/
def majorVersionCmd (repo : Repository) : Result Error version :=
  match getLatestVersion repo with
  | .error e => .error e
  | .ok currentVersion => .ok (majorNewVersion currentVersion)

/-! ## Tag creation -/

/-- What a call leaves behind in the world: a tag created by `repo.CreateTag`, a string
written by `fmt.Printf`. -/
inductive Effect where
  | tagCreated (name : GoString) (hash : Hash) (message : GoString)
  | printed (s : GoString)
  deriving DecidableEq, Repr

/-- The function `updateVersion`: the returned error (`none` is `nil`) and the effects. -/
def updateVersion (repo : Repository) (v : version) ( annotation : GoString) :
    Option Error × List Effect :=
  match repo.Head with
  | .error e => (some e, [])
  | .ok ref =>
    match repo.Validate ref annotation with
    | some e => (some e, [])
    | none =>
      match repo.CreateTag v.String ref annotation with
      | some e => (some e, [])
      | none =>
        (none, [.tagCreated v.String ref annotation,
                .printed ("Created tag ".toList ++ v.String)])

/-! ## The interactive annotation session -/

/-- Messages of the event loop: a key press, given by the name `msg.String()` of the key,
or any other message. -/
inductive Msg where
  | KeyMsg (k : GoString)
  | other
  deriving DecidableEq, Repr

/-- Commands returned to the event loop: `tea.Quit`, or a command of the text input. -/
inductive Cmd (C : Type) where
  | Quit
  | input (c : C)
  deriving DecidableEq, Repr

/-- The operations of `textinput.Model` the program calls; `T` is the text input's state,
`C` its commands. -/
structure TextInput (T C : Type) where
  Value : T → GoString
  SetValue : T → GoString → T
  Update : T → Msg → T × Option C

/-- The struct `model`. -/
structure model (T : Type) where
  currentVersion : version
  newVersion : version
  annotation : T
  commitMessage : GoString
  done : Bool
  deriving DecidableEq, Repr

/-- The method `model.Update`: the new model, the command (`none` is `nil`) and the effects
of the call. `repo` is the global repository handle. -/
def model.Update {T C : Type} (ti : TextInput T C) (repo : Repository) (m : model T)
    (msg : Msg) : model T × Option (Cmd C) × List Effect :=
  match msg with
  | .KeyMsg k =>
    if k = "ctrl+c".toList ∨ k = "q".toList then (m, some .Quit, [])
    else if k = "enter".toList then
      match updateVersion repo m.newVersion (ti.Value m.annotation) with
      | (some _, effects) => (m, some .Quit, effects)
      | (none, effects) => ({ m with done := true }, some .Quit, effects)
    else if k = "right".toList then
      if (ti.Value m.annotation).length = 0 then
        ({ m with annotation := ti.SetValue m.annotation m.commitMessage }, none, [])
      else (m, none, [])
    else
      let r := ti.Update m.annotation msg
      ({ m with annotation := r.1 }, r.2.map Cmd.input, [])
  | .other => (m, none, [])

/-! ## The text input of the session -/

/-- The predicate `unicode.IsControl`: the control characters U+0000..U+001F and
U+007F..U+009F. -/
def IsControl (r : Char) : Bool :=
  r.toNat ≤ 0x1F || (0x7F ≤ r.toNat && r.toNat ≤ 0x9F)

/-- The sanitizer `textinput.Model` applies to a value it is given: the replacement
character U+FFFD is skipped, a carriage return, newline or tab becomes one space, every
other control character is skipped, all other characters are kept. -/
def Sanitize (runes : GoString) : GoString :=
  match runes with
  | [] => []
  | r :: rest =>
    if r = Char.ofNat 0xFFFD then Sanitize rest
    else if r = '\r' ∨ r = '\n' then ' ' :: Sanitize rest
    else if r = '\t' then ' ' :: Sanitize rest
    else if IsControl r then Sanitize rest
    else r :: Sanitize rest

/-- The fields of `textinput.Model` that `Value` and `SetValue` read and write, and those
`initialModel` sets. -/
structure textinput.Model where
  value : GoString
  pos : Nat
  focus : Bool
  CharLimit : Int
  Width : Int
  Placeholder : GoString
  deriving DecidableEq, Repr

/-- The constructor `textinput.New`. -/
def textinput.New : textinput.Model :=
  { value := [], pos := 0, focus := false, CharLimit := 0, Width := 0, Placeholder := [] }

/-- The method `textinput.Model.Focus`. -/
def textinput.Model.Focus (m : textinput.Model) : textinput.Model :=
  { m with focus := true }

/-- The method `textinput.Model.Value`. -/
def textinput.Model.Value (m : textinput.Model) : GoString := m.value

/-- The method `textinput.Model.SetValue` (no `Validate` function is installed): the
sanitized value, cut to `CharLimit` characters when the limit is positive; the cursor goes
to the end when it stood at the start of an empty buffer or would lie past the end. -/
def textinput.Model.SetValue (m : textinput.Model) (s : GoString) : textinput.Model :=
  let runes := Sanitize s
  let empty := m.value.length = 0
  let value :=
    if m.CharLimit > 0 ∧ (runes.length : Int) > m.CharLimit then runes.take m.CharLimit.toNat
    else runes
  let pos := if (m.pos = 0 ∧ empty) ∨ m.pos > value.length then value.length else m.pos
  { m with value := value, pos := pos }

/-- The text input of the program: `Value` and `SetValue` as above; the key handling
`Update` of the library is left as a parameter. -/
def bubbles {C : Type} (Update : textinput.Model → Msg → textinput.Model × Option C) :
    TextInput textinput.Model C :=
  { Value := textinput.Model.Value, SetValue := textinput.Model.SetValue, Update := Update }

/-- The function `initialModel`, on the opened repository: an error stands for the
`log.Fatal` exits. -/
def initialModel (repo : Repository) (newVersion : version) :
    Result Error (model textinput.Model) :=
  let ti := textinput.New.Focus
  let ti := { ti with CharLimit := 156, Width := 20 }
  match getLatestVersion repo with
  | .error e => .error e
  | .ok v =>
    match getLastCommitMessage repo with
    | .error e => .error e
    | .ok commitMessage =>
      .ok { currentVersion := v
            newVersion := newVersion
            annotation := { ti with Placeholder := commitMessage }
            commitMessage := commitMessage
            done := false }

/-! ## Sample collaborators -/

/-- A repository whose tag enumeration answers `refs`, with head commit `0`, and whose
backend accepts every tag creation. -/
def repoWithTags (refs : List TagObjectResult) : Repository :=
  { Tags := .ok refs, Head := .ok 0, Validate := fun _ _ => none,
    CreateTag := fun _ _ _ => none, CommitMessage := fun _ => .ok [] }

/-- A repository without tags whose head commit carries the message `message`. -/
def repoWithMessage (message : GoString) : Repository :=
  { Tags := .ok [], Head := .ok 0, Validate := fun _ _ => none,
    CreateTag := fun _ _ _ => none, CommitMessage := fun _ => .ok message }

/-- The session started by `initialModel` on a repository without tags whose last commit
message is `message`, for the proposed version `v0.0.1`, once `buffer` has been typed. -/
def sessionWith (message buffer : GoString) : model textinput.Model :=
  { currentVersion := { Major := 0, Minor := 0, Patch := 0, Label := [] }
    newVersion := { Major := 0, Minor := 0, Patch := 1, Label := [] }
    annotation :=
      { value := buffer, pos := buffer.length, focus := true, CharLimit := 156, Width := 20,
        Placeholder := message }
    commitMessage := message
    done := false }

/-! ## Specification-side notions -/

/-- The numeric triple of a version in the lexicographic order: majors first, then minors,
then patches. The label is not part of it. -/
def version.triple (v : version) : ℤ ×ₗ ℤ ×ₗ ℤ := toLex (v.Major, toLex (v.Minor, v.Patch))

/-- The value of a decimal digit character. -/
def digitValue (c : Char) : Nat := c.toNat - 48

/-- The number denoted by the digits read so far (`n`) followed by the digits `ds`. -/
def loopValue (ds : GoString) (n : Nat) : Nat := ds.foldl (fun n c => n * 10 + digitValue c) n

/-- The number a string of decimal digits denotes. -/
def decimalValue (ds : GoString) : Nat := loopValue ds 0

/-- A non-empty string of ASCII decimal digits. -/
def isDecimal (ds : GoString) : Bool := !ds.isEmpty && ds.all Char.isDigit

/-- A decimal integer literal: an optional sign `+` or `-`, then one or more digits. -/
def isInteger (s : GoString) : Bool :=
  match s with
  | [] => false
  | c :: cs => if c = '+' ∨ c = '-' then isDecimal cs else isDecimal (c :: cs)

/-- The integer a decimal integer literal denotes. -/
def integerValue (s : GoString) : Int :=
  match s with
  | [] => 0
  | c :: cs =>
    if c = '-' then -(decimalValue cs : Int)
    else if c = '+' then (decimalValue cs : Int)
    else (decimalValue (c :: cs) : Int)

/-- The decimal numeral of a natural number: its base-ten digits, most significant first,
`0` for zero. -/
def decimalNat (n : Nat) : GoString :=
  if n = 0 then ['0'] else (Nat.digits 10 n).reverse.map Nat.digitChar

/-- The decimal numeral of an integer: a minus sign before the numeral of the absolute
value when it is negative. -/
def decimal (x : Int) : GoString :=
  if x < 0 then '-' :: decimalNat x.natAbs else decimalNat x.natAbs

/-- A decimal integer literal whose value fits Go's `int`. -/
def isIntLiteral (s : GoString) : Prop :=
  isInteger s = true ∧ minInt ≤ integerValue s ∧ integerValue s ≤ maxInt

/-- A decimal integer literal whose value is not negative. -/
def isNonNegInteger (s : GoString) : Prop :=
  isInteger s = true ∧ 0 ≤ integerValue s

instance (s : GoString) : Decidable (isIntLiteral s) := by
  unfold isIntLiteral; infer_instance

instance (s : GoString) : Decidable (isNonNegInteger s) := by
  unfold isNonNegInteger; infer_instance

/-! ## Ordering lemmas -/

theorem isGreaterThan_iff (a b : version) :
    a.isGreaterThan b = true ↔
      b.Major < a.Major ∨ (a.Major = b.Major ∧ b.Minor < a.Minor) ∨
        (a.Major = b.Major ∧ a.Minor = b.Minor ∧ b.Patch < a.Patch) := by
  unfold version.isGreaterThan
  by_cases h1 : a.Major > b.Major
  · simp [h1]
  · by_cases h2 : a.Major = b.Major ∧ a.Minor > b.Minor
    · simp [h2]
    · by_cases h3 : a.Major = b.Major ∧ a.Minor = b.Minor ∧ a.Patch > b.Patch
      · simp [h3]
      · simp only [h1, h2, h3, if_false]
        simp only [gt_iff_lt] at h1 h2 h3
        simp [h1, h2, h3]

theorem triple_lt_iff (a b : version) :
    b.triple < a.triple ↔
      b.Major < a.Major ∨ (a.Major = b.Major ∧ b.Minor < a.Minor) ∨
        (a.Major = b.Major ∧ a.Minor = b.Minor ∧ b.Patch < a.Patch) := by
  unfold version.triple
  rw [Prod.Lex.lt_iff]
  simp only [Prod.Lex.lt_iff]
  constructor
  · rintro (h | ⟨h, h' | ⟨h', h''⟩⟩)
    · exact Or.inl h
    · exact Or.inr (Or.inl ⟨h.symm, h'⟩)
    · exact Or.inr (Or.inr ⟨h.symm, h'.symm, h''⟩)
  · rintro (h | ⟨h, h'⟩ | ⟨h, h', h''⟩)
    · exact Or.inl h
    · exact Or.inr ⟨h.symm, Or.inl h'⟩
    · exact Or.inr ⟨h.symm, Or.inr ⟨h'.symm, h''⟩⟩

theorem isGreaterThan_iff_triple (a b : version) :
    a.isGreaterThan b = true ↔ b.triple < a.triple := by
  rw [isGreaterThan_iff, triple_lt_iff]

theorem isGreaterThan_false_iff (a b : version) :
    a.isGreaterThan b = false ↔ a.triple ≤ b.triple := by
  rw [← not_lt, ← isGreaterThan_iff_triple]
  simp

theorem triple_eq_iff (a b : version) :
    a.triple = b.triple ↔ (a.Major, a.Minor, a.Patch) = (b.Major, b.Minor, b.Patch) := by
  unfold version.triple
  constructor
  · intro h
    have h1 := congrArg (fun t => (ofLex t).1) h
    have h2 := congrArg (fun t => (ofLex (ofLex t).2).1) h
    have h3 := congrArg (fun t => (ofLex (ofLex t).2).2) h
    simp only [ofLex_toLex] at h1 h2 h3
    rw [h1, h2, h3]
  · intro h
    simp only [Prod.mk.injEq] at h
    rw [h.1, h.2.1, h.2.2]

/-! ## `strconv` lemmas -/

theorem loopValue_cons (c : Char) (cs : GoString) (n : Nat) :
    loopValue (c :: cs) n = loopValue cs (n * 10 + digitValue c) := rfl

theorem loopValue_append (a b : GoString) (n : Nat) :
    loopValue (a ++ b) n = loopValue b (loopValue a n) := by
  unfold loopValue
  rw [List.foldl_append]

theorem le_loopValue (s : GoString) (n : Nat) : n ≤ loopValue s n := by
  induction s generalizing n with
  | nil => exact Nat.le_refl n
  | cons c cs ih =>
    rw [loopValue_cons]
    exact Nat.le_trans (by omega) (ih _)

theorem digit_range_iff (c : Char) : ('0' ≤ c ∧ c ≤ '9') ↔ c.isDigit = true := by
  unfold Char.isDigit
  simp only [Bool.and_eq_true, decide_eq_true_eq, ge_iff_le]
  exact Iff.rfl

theorem digitValue_le_of_isDigit (c : Char) (h : c.isDigit = true) : digitValue c ≤ 9 := by
  unfold Char.isDigit at h
  simp only [Bool.and_eq_true, decide_eq_true_eq, ge_iff_le] at h
  have h2 : c.val.toNat ≤ 57 := h.2
  unfold digitValue Char.toNat
  omega

/-- The digit loop succeeds exactly on digit strings whose value fits 64 bits, and then
returns that value. -/
theorem ParseUintLoop_eq_ok_iff (s : GoString) (n m : Nat) (hn : n < 18446744073709551616) :
    ParseUintLoop s n = .ok m ↔
      s.all Char.isDigit = true ∧ loopValue s n = m ∧ m < 18446744073709551616 := by
  induction s generalizing n with
  | nil =>
    simp only [ParseUintLoop, Result.ok.injEq, List.all_nil, loopValue, List.foldl_nil, true_and]
    constructor
    · intro h; subst h; exact ⟨rfl, hn⟩
    · intro h; exact h.1
  | cons c cs ih =>
    rw [ParseUintLoop, loopValue_cons, List.all_cons, Bool.and_eq_true]
    by_cases hd : '0' ≤ c ∧ c ≤ '9'
    · have hdig : c.isDigit = true := (digit_range_iff c).1 hd
      have hle : digitValue c ≤ 9 := digitValue_le_of_isDigit c hdig
      have hdv : c.toNat - '0'.toNat = digitValue c := rfl
      rw [if_pos hd]
      simp only [hdv, hdig, true_and]
      by_cases hc : n ≥ 1844674407370955162
      · rw [if_pos hc]
        constructor
        · intro h; exact absurd h (by simp)
        · rintro ⟨_, h1, h2⟩
          have := le_loopValue cs (n * 10 + digitValue c)
          omega
      · rw [if_neg hc]
        have h10 : n * 10 % 18446744073709551616 = n * 10 := Nat.mod_eq_of_lt (by omega)
        simp only [h10]
        by_cases hov : n * 10 + digitValue c < 18446744073709551616
        · have h1 : (n * 10 + digitValue c) % 18446744073709551616 = n * 10 + digitValue c :=
            Nat.mod_eq_of_lt hov
          simp only [h1]
          rw [if_neg (by omega)]
          exact ih _ hov
        · have h1 : (n * 10 + digitValue c) % 18446744073709551616
              = n * 10 + digitValue c - 18446744073709551616 := by
            rw [Nat.mod_eq_sub_mod (by omega)]
            exact Nat.mod_eq_of_lt (by omega)
          simp only [h1]
          rw [if_pos (by omega)]
          constructor
          · intro h; exact absurd h (by simp)
          · rintro ⟨_, h2, h3⟩
            have := le_loopValue cs (n * 10 + digitValue c)
            omega
    · rw [if_neg hd]
      have hdig : c.isDigit = false := by
        cases h : c.isDigit
        · rfl
        · exact absurd ((digit_range_iff c).2 h) hd
      simp [hdig]

theorem ParseUint_eq_ok_iff (s : GoString) (m : Nat) :
    ParseUint s = .ok m ↔
      isDecimal s = true ∧ decimalValue s = m ∧ m < 18446744073709551616 := by
  cases s with
  | nil => simp [ParseUint, isDecimal]
  | cons c cs =>
    simp only [ParseUint, isDecimal, List.isEmpty_cons, Bool.not_false, Bool.true_and]
    exact ParseUintLoop_eq_ok_iff (c :: cs) 0 m (by omega)

/-- The function `Atoi` succeeds exactly on the decimal integer literals whose value fits
`int`, and then returns that value. -/
theorem Atoi_eq_ok_iff (s : GoString) (x : Int) :
    Atoi s = .ok x ↔ isIntLiteral s ∧ integerValue s = x := by
  unfold isIntLiteral minInt maxInt
  cases s with
  | nil => simp [Atoi, isInteger]
  | cons c cs =>
    by_cases hm : c = '-'
    · subst hm
      simp only [Atoi, isInteger, integerValue, or_true, if_true, decide_True, true_and,
        not_true_eq_false, false_and, if_false]
      cases hp : ParseUint cs with
      | error e =>
        have hno : ¬ (isDecimal cs = true ∧ decimalValue cs < 18446744073709551616) := by
          intro h
          have := (ParseUint_eq_ok_iff cs (decimalValue cs)).2 ⟨h.1, rfl, h.2⟩
          rw [hp] at this
          exact absurd this (by simp)
        simp only [false_iff, not_and, reduceCtorEq]
        intro ⟨h1, h2, h3⟩ _
        exact hno ⟨h1, by omega⟩
      | ok un =>
        obtain ⟨h1, h2, h3⟩ := (ParseUint_eq_ok_iff cs un).1 hp
        simp only [h1, h2, true_and]
        by_cases hc : un > 9223372036854775808
        · rw [if_pos hc]
          simp only [false_iff, not_and, reduceCtorEq]
          intro ⟨h4, h5⟩
          omega
        · rw [if_neg hc]
          simp only [Result.ok.injEq]
          constructor
          · intro h; exact ⟨⟨by omega, by omega⟩, h⟩
          · intro h; exact h.2
    · by_cases hpl : c = '+'
      · subst hpl
        simp only [Atoi, isInteger, integerValue, true_or, if_true, hm, decide_False,
          if_false, not_false_eq_true, true_and, false_and]
        cases hp : ParseUint cs with
        | error e =>
          have hno : ¬ (isDecimal cs = true ∧ decimalValue cs < 18446744073709551616) := by
            intro h
            have := (ParseUint_eq_ok_iff cs (decimalValue cs)).2 ⟨h.1, rfl, h.2⟩
            rw [hp] at this
            exact absurd this (by simp)
          simp only [false_iff, not_and, reduceCtorEq]
          intro ⟨h1, h2, h3⟩ _
          exact hno ⟨h1, by omega⟩
        | ok un =>
          obtain ⟨h1, h2, h3⟩ := (ParseUint_eq_ok_iff cs un).1 hp
          simp only [h1, h2, true_and]
          by_cases hc : un ≥ 9223372036854775808
          · rw [if_pos hc]
            simp only [false_iff, not_and, reduceCtorEq]
            intro ⟨h4, h5⟩
            omega
          · rw [if_neg hc]
            simp only [Result.ok.injEq]
            constructor
            · intro h; exact ⟨⟨by omega, by omega⟩, h⟩
            · intro h; exact h.2
      · simp only [Atoi, isInteger, integerValue, hm, hpl, or_self, if_false, decide_False,
          not_false_eq_true, true_and, false_and]
        cases hp : ParseUint (c :: cs) with
        | error e =>
          have hno : ¬ (isDecimal (c :: cs) = true ∧
              decimalValue (c :: cs) < 18446744073709551616) := by
            intro h
            have := (ParseUint_eq_ok_iff (c :: cs) (decimalValue (c :: cs))).2 ⟨h.1, rfl, h.2⟩
            rw [hp] at this
            exact absurd this (by simp)
          simp only [false_iff, not_and, reduceCtorEq]
          intro ⟨h1, h2, h3⟩ _
          exact hno ⟨h1, by omega⟩
        | ok un =>
          obtain ⟨h1, h2, h3⟩ := (ParseUint_eq_ok_iff (c :: cs) un).1 hp
          simp only [h1, h2, true_and]
          by_cases hc : un ≥ 9223372036854775808
          · rw [if_pos hc]
            simp only [false_iff, not_and, reduceCtorEq]
            intro ⟨h4, h5⟩
            omega
          · rw [if_neg hc]
            simp only [Result.ok.injEq]
            constructor
            · intro h; exact ⟨⟨by omega, by omega⟩, h⟩
            · intro h; exact h.2

theorem Atoi_isOk_iff (s : GoString) : (∃ x, Atoi s = .ok x) ↔ isIntLiteral s := by
  constructor
  · rintro ⟨x, h⟩
    exact ((Atoi_eq_ok_iff s x).1 h).1
  · intro h
    exact ⟨integerValue s, (Atoi_eq_ok_iff s _).2 ⟨h, rfl⟩⟩

theorem Atoi_error_iff (s : GoString) : (∃ e, Atoi s = .error e) ↔ ¬ isIntLiteral s := by
  rw [← Atoi_isOk_iff]
  cases h : Atoi s with
  | ok x => simp
  | error e => simp

/-! ## Formatting lemmas -/

theorem formatBits_append (fuel n : Nat) (acc : GoString) :
    formatBits fuel n acc = formatBits fuel n [] ++ acc := by
  induction fuel generalizing n acc with
  | zero => rfl
  | succ f ih =>
    simp only [formatBits]
    by_cases h : n / 10 = 0
    · simp [h]
    · rw [if_neg h, if_neg h, ih (n / 10) (Nat.digitChar (n % 10) :: acc),
        ih (n / 10) [Nat.digitChar (n % 10)]]
      simp

theorem formatBits_succ (f n : Nat) :
    formatBits (f + 1) n [] =
      if n / 10 = 0 then [Nat.digitChar (n % 10)]
      else formatBits f (n / 10) [] ++ [Nat.digitChar (n % 10)] := by
  simp only [formatBits]
  by_cases h : n / 10 = 0
  · rw [if_pos h, if_pos h]
  · rw [if_neg h, if_neg h, formatBits_append]

theorem digitChar_isDigit (d : Nat) (h : d < 10) :
    (Nat.digitChar d).isDigit = true ∧ digitValue (Nat.digitChar d) = d := by
  interval_cases d <;> decide

/-- The division loop writes the decimal numeral. -/
theorem formatBits_eq_decimalNat (fuel n : Nat) (h : n < fuel) :
    formatBits fuel n [] = decimalNat n := by
  induction fuel generalizing n with
  | zero => omega
  | succ f ih =>
    rw [formatBits_succ]
    by_cases h0 : n / 10 = 0
    · rw [if_pos h0]
      have hlt : n < 10 := by omega
      unfold decimalNat
      by_cases hz : n = 0
      · subst hz; rfl
      · rw [if_neg hz, Nat.digits_of_lt 10 n hz hlt, Nat.mod_eq_of_lt hlt]
        rfl
    · rw [if_neg h0, ih (n / 10) (by omega)]
      unfold decimalNat
      have hz : n ≠ 0 := by omega
      rw [if_neg h0, if_neg hz, Nat.digits_def' (by omega) (by omega : 0 < n)]
      simp

theorem fmtInt_eq_decimal (x : Int) : fmtInt x = decimal x := by
  unfold fmtInt decimal
  rw [formatBits_eq_decimalNat _ _ (Nat.lt_succ_self _)]

theorem formatBits_digits (fuel n : Nat) (h : n < fuel) :
    isDecimal (formatBits fuel n []) = true ∧ decimalValue (formatBits fuel n []) = n := by
  induction fuel generalizing n with
  | zero => omega
  | succ f ih =>
    rw [formatBits_succ]
    have hd := digitChar_isDigit (n % 10) (Nat.mod_lt _ (by omega))
    by_cases h0 : n / 10 = 0
    · rw [if_pos h0]
      simp only [isDecimal, decimalValue, loopValue, List.isEmpty_cons, Bool.not_false,
        List.all_cons, hd.1, List.all_nil, Bool.and_self, List.foldl_cons, List.foldl_nil,
        hd.2, true_and]
      omega
    · rw [if_neg h0]
      obtain ⟨i1, i2⟩ := ih (n / 10) (by omega)
      simp only [isDecimal, Bool.and_eq_true, Bool.not_eq_true'] at i1
      constructor
      · simp only [isDecimal, List.all_append, List.all_cons, hd.1, List.all_nil,
          Bool.and_self, Bool.and_true, i1.2, Bool.and_eq_true, Bool.not_eq_true']
        simp
      · unfold decimalValue at i2 ⊢
        rw [loopValue_append, i2]
        simp only [loopValue, List.foldl_cons, List.foldl_nil, hd.2]
        omega

theorem decimalNat_digits (n : Nat) :
    isDecimal (decimalNat n) = true ∧ decimalValue (decimalNat n) = n := by
  rw [← formatBits_eq_decimalNat (n + 1) n (Nat.lt_succ_self _)]
  exact formatBits_digits _ _ (Nat.lt_succ_self _)

theorem isDecimal_all (s : GoString) (h : isDecimal s = true) : ∀ c ∈ s, c.isDigit = true := by
  simp only [isDecimal, Bool.and_eq_true, List.all_eq_true] at h
  exact h.2

theorem not_mem_of_isDecimal (s : GoString) (h : isDecimal s = true) (c : Char)
    (hc : c.isDigit = false) : c ∉ s := by
  intro hm
  rw [isDecimal_all s h c hm] at hc
  exact absurd hc (by simp)

/-- A digit string is an integer literal denoting its value. -/
theorem isInteger_of_isDecimal (s : GoString) (h : isDecimal s = true) :
    isInteger s = true ∧ integerValue s = (decimalValue s : Int) := by
  cases s with
  | nil => simp [isDecimal] at h
  | cons c cs =>
    have hc : c.isDigit = true := isDecimal_all _ h c (List.mem_cons_self _ _)
    have h1 : c ≠ '+' := by
      intro hh; subst hh; exact absurd hc (by decide)
    have h2 : c ≠ '-' := by
      intro hh; subst hh; exact absurd hc (by decide)
    simp only [isInteger, integerValue, h1, h2, or_self, if_false, h, and_self]

/-- Reading back what `%d` wrote gives the number again. -/
theorem Atoi_fmtInt (x : Int) (h0 : 0 ≤ x) (h1 : x ≤ maxInt) : Atoi (fmtInt x) = .ok x := by
  rw [fmtInt_eq_decimal, Atoi_eq_ok_iff]
  unfold decimal
  rw [if_neg (by omega)]
  obtain ⟨d1, d2⟩ := decimalNat_digits x.natAbs
  obtain ⟨i1, i2⟩ := isInteger_of_isDecimal _ d1
  rw [d2] at i2
  have hx : (x.natAbs : Int) = x := Int.natAbs_of_nonneg h0
  unfold isIntLiteral
  rw [i1, i2, hx]
  unfold minInt
  exact ⟨⟨rfl, by omega, h1⟩, rfl⟩

/-! ## Splitting lemmas -/

theorem Split_ne_nil (s : GoString) (sep : Char) : Split s sep ≠ [] := by
  induction s with
  | nil => simp [Split]
  | cons c cs ih =>
    simp only [Split]
    by_cases h : c = sep
    · simp [h]
    · rw [if_neg h]
      cases hs : Split cs sep with
      | nil => simp
      | cons piece pieces => simp

theorem Split_of_not_mem (s : GoString) (sep : Char) (h : sep ∉ s) : Split s sep = [s] := by
  induction s with
  | nil => rfl
  | cons c cs ih =>
    simp only [List.mem_cons, not_or] at h
    simp only [Split]
    rw [if_neg (fun hc => h.1 hc.symm), ih h.2]

theorem Split_append_sep (a b : GoString) (sep : Char) (h : sep ∉ a) :
    Split (a ++ sep :: b) sep = a :: Split b sep := by
  induction a with
  | nil => simp [Split]
  | cons c cs ih =>
    simp only [List.mem_cons, not_or] at h
    rw [List.cons_append, Split, if_neg (fun hc => h.1 hc.symm), ih h.2]

theorem fmtInt_isDecimal (x : Int) (h : 0 ≤ x) : isDecimal (fmtInt x) = true := by
  rw [fmtInt_eq_decimal]
  unfold decimal
  rw [if_neg (by omega)]
  exact (decimalNat_digits _).1

theorem String_eq (v : version) :
    v.String =
      ('v' :: fmtInt v.Major) ++ '.' :: (fmtInt v.Minor ++ '.' ::
        (fmtInt v.Patch ++ (if v.Label = [] then [] else '-' :: v.Label))) := by
  unfold version.String
  by_cases h : v.Label = []
  · simp [h]
  · simp [h]

/-- The three dot-separated parts of a formatted version with non-negative numbers and a
label without dots. -/
theorem Split_String (v : version) (h1 : 0 ≤ v.Major) (h2 : 0 ≤ v.Minor) (h3 : 0 ≤ v.Patch)
    (hdot : '.' ∉ v.Label) :
    Split v.String '.' =
      ['v' :: fmtInt v.Major, fmtInt v.Minor,
        fmtInt v.Patch ++ (if v.Label = [] then [] else '-' :: v.Label)] := by
  have d1 := not_mem_of_isDecimal _ (fmtInt_isDecimal _ h1) '.' (by decide)
  have d2 := not_mem_of_isDecimal _ (fmtInt_isDecimal _ h2) '.' (by decide)
  have d3 := not_mem_of_isDecimal _ (fmtInt_isDecimal _ h3) '.' (by decide)
  rw [String_eq, Split_append_sep _ _ _ (by
    simp only [List.mem_cons, not_or]
    exact ⟨by decide, d1⟩), Split_append_sep _ _ _ d2, Split_of_not_mem]
  simp only [List.mem_append, not_or]
  refine ⟨d3, ?_⟩
  by_cases h : v.Label = []
  · simp [h]
  · rw [if_neg h]
    simp only [List.mem_cons, not_or]
    exact ⟨by decide, hdot⟩

/-! ## Resolver lemmas -/

/-- What a successful call of the callback does to the accumulator. -/
theorem tagCallback_ok (cur v : version) (r : TagObjectResult)
    (h : tagCallback cur r = .ok v) :
    cur.triple ≤ v.triple ∧
    (∀ name w, r = .object name → parseTagName name = .ok (some w) → w.triple ≤ v.triple) ∧
    (v = cur ∨ ∃ name, r = .object name ∧ parseTagName name = .ok (some v)) := by
  cases r with
  | object name =>
    simp only [tagCallback] at h
    cases hp : parseTagName name with
    | error e => rw [hp] at h; simp at h
    | ok o =>
      cases o with
      | none =>
        rw [hp] at h
        simp only [Result.ok.injEq] at h
        subst h
        refine ⟨le_refl _, ?_, Or.inl rfl⟩
        intro name' w hn hw
        simp only [TagObjectResult.object.injEq] at hn
        subst hn
        rw [hp] at hw
        simp at hw
      | some w =>
        rw [hp] at h
        simp only at h
        by_cases hg : w.isGreaterThan cur = true
        · rw [if_pos hg] at h
          simp only [Result.ok.injEq] at h
          subst h
          refine ⟨le_of_lt ((isGreaterThan_iff_triple _ _).1 hg), ?_, Or.inr ⟨name, rfl, hp⟩⟩
          intro name' w' hn hw
          simp only [TagObjectResult.object.injEq] at hn
          subst hn
          rw [hp] at hw
          simp only [Result.ok.injEq, Option.some.injEq] at hw
          subst hw
          exact le_refl _
        · rw [if_neg hg] at h
          simp only [Result.ok.injEq] at h
          subst h
          refine ⟨le_refl _, ?_, Or.inl rfl⟩
          intro name' w' hn hw
          simp only [TagObjectResult.object.injEq] at hn
          subst hn
          rw [hp] at hw
          simp only [Result.ok.injEq, Option.some.injEq] at hw
          subst hw
          simp only [Bool.not_eq_true] at hg
          exact (isGreaterThan_false_iff _ _).1 hg
  | ErrObjectNotFound =>
    simp only [tagCallback, Result.ok.injEq] at h
    subst h
    exact ⟨le_refl _, fun _ _ hn _ => by simp at hn, Or.inl rfl⟩
  | otherErr e => simp [tagCallback] at h

/-- Whether the callback fails does not depend on the accumulator. -/
theorem tagCallback_isOk_indep (cur cur' : version) (r : TagObjectResult) :
    (∃ v, tagCallback cur r = .ok v) → ∃ v, tagCallback cur' r = .ok v := by
  cases r with
  | object name =>
    simp only [tagCallback]
    cases hp : parseTagName name with
    | error e => simp
    | ok o =>
      cases o with
      | none => simp
      | some w =>
        intro _
        by_cases hg : w.isGreaterThan cur' = true
        · exact ⟨w, by simp [hg]⟩
        · exact ⟨cur', by simp [hg]⟩
  | ErrObjectNotFound => intro _; exact ⟨cur', rfl⟩
  | otherErr e => simp [tagCallback]

theorem ForEach_cons (r : TagObjectResult) (rest : List TagObjectResult) (cur : version) :
    ForEach (r :: rest) cur =
      match tagCallback cur r with
      | .error e => .error e
      | .ok v => ForEach rest v := rfl

/-- The iteration succeeds exactly when the callback accepts every reference. -/
theorem ForEach_isOk_iff (refs : List TagObjectResult) (cur : version) :
    (∃ v, ForEach refs cur = .ok v) ↔ ∀ r ∈ refs, ∃ v, tagCallback cur r = .ok v := by
  induction refs generalizing cur with
  | nil => simp [ForEach]
  | cons r rest ih =>
    rw [ForEach_cons]
    constructor
    · rintro ⟨v, h⟩
      cases hc : tagCallback cur r with
      | error e => rw [hc] at h; simp at h
      | ok w =>
        rw [hc] at h
        intro r' hr'
        rcases List.mem_cons.1 hr' with h1 | h1
        · subst h1; exact ⟨w, hc⟩
        · exact tagCallback_isOk_indep w cur r' ((ih w).1 ⟨v, h⟩ r' h1)
    · intro h
      obtain ⟨w, hw⟩ := h r (List.mem_cons_self _ _)
      rw [hw]
      exact (ih w).2 (fun r' hr' =>
        tagCallback_isOk_indep cur w r' (h r' (List.mem_cons_of_mem _ hr')))

/-- The result of a successful iteration is an upper bound of the start value and of
every parsed version, and it is the start value or one of the parsed versions. -/
theorem ForEach_ok (refs : List TagObjectResult) (cur v : version)
    (h : ForEach refs cur = .ok v) :
    cur.triple ≤ v.triple ∧
    (∀ name w, TagObjectResult.object name ∈ refs → parseTagName name = .ok (some w) →
      w.triple ≤ v.triple) ∧
    (v = cur ∨ ∃ name, TagObjectResult.object name ∈ refs ∧
      parseTagName name = .ok (some v)) := by
  induction refs generalizing cur with
  | nil =>
    simp only [ForEach, Result.ok.injEq] at h
    subst h
    exact ⟨le_refl _, fun _ _ hm _ => by simp at hm, Or.inl rfl⟩
  | cons r rest ih =>
    rw [ForEach_cons] at h
    cases hc : tagCallback cur r with
    | error e => rw [hc] at h; simp at h
    | ok w =>
      rw [hc] at h
      obtain ⟨h1, h2, h3⟩ := tagCallback_ok cur w r hc
      obtain ⟨i1, i2, i3⟩ := ih w h
      refine ⟨le_trans h1 i1, ?_, ?_⟩
      · intro name x hm hx
        rcases List.mem_cons.1 hm with hm | hm
        · exact le_trans (h2 name x hm.symm hx) i1
        · exact i2 name x hm hx
      · rcases i3 with i3 | ⟨name, hm, hx⟩
        · subst i3
          rcases h3 with h3 | ⟨name, hn, hx⟩
          · exact Or.inl h3
          · exact Or.inr ⟨name, by rw [hn]; exact List.mem_cons_self _ _, hx⟩
        · exact Or.inr ⟨name, List.mem_cons_of_mem _ hm, hx⟩

/-- A reference the callback passes over can be dropped from the sequence. -/
theorem ForEach_skip (pre post : List TagObjectResult) (t : TagObjectResult) (cur : version)
    (ht : ∀ c, tagCallback c t = .ok c) :
    ForEach (pre ++ t :: post) cur = ForEach (pre ++ post) cur := by
  induction pre generalizing cur with
  | nil => simp only [List.nil_append, ForEach_cons, ht]
  | cons r rest ih =>
    simp only [List.cons_append, ForEach_cons]
    cases tagCallback cur r with
    | error e => rfl
    | ok w => exact ih w

theorem parseTagName_none_of_length (name : GoString) (h : (Split name '.').length ≠ 3) :
    parseTagName name = .ok none := by
  unfold parseTagName
  split
  · rename_i p0 p1 p2 heq
    rw [heq] at h
    simp at h
  · rfl

theorem getLatestVersion_of_tags (repo : Repository) (refs : List TagObjectResult)
    (h : repo.Tags = .ok refs) :
    getLatestVersion repo = ForEach refs { Major := 0, Minor := 0, Patch := 0, Label := [] } := by
  unfold getLatestVersion
  rw [h]

theorem tagCallback_skip (t : TagObjectResult)
    (h : t = .ErrObjectNotFound ∨ ∃ name, t = .object name ∧ (Split name '.').length ≠ 3)
    (cur : version) : tagCallback cur t = .ok cur := by
  rcases h with h | ⟨name, h, hlen⟩
  · subst h; rfl
  · subst h
    simp only [tagCallback, parseTagName_none_of_length name hlen]

theorem ForEach_all_skip (refs : List TagObjectResult) (cur : version)
    (h : ∀ r ∈ refs, ∀ c, tagCallback c r = .ok c) : ForEach refs cur = .ok cur := by
  induction refs with
  | nil => rfl
  | cons r rest ih =>
    rw [ForEach_cons, h r (List.mem_cons_self _ _) cur]
    exact ih (fun r' hr' => h r' (List.mem_cons_of_mem _ hr'))

theorem ForEach_error_of_mem (refs : List TagObjectResult) (cur : version)
    (r : TagObjectResult) (hr : r ∈ refs) (herr : ∀ c, ∃ e, tagCallback c r = .error e) :
    ∃ e, ForEach refs cur = .error e := by
  cases h : ForEach refs cur with
  | error e => exact ⟨e, rfl⟩
  | ok v =>
    obtain ⟨w, hw⟩ := (ForEach_isOk_iff refs cur).1 ⟨v, h⟩ r hr
    obtain ⟨e, he⟩ := herr cur
    rw [he] at hw
    simp at hw

theorem triple_components (a b : version) (h : a.triple = b.triple) :
    a.Major = b.Major ∧ a.Minor = b.Minor ∧ a.Patch = b.Patch := by
  have := (triple_eq_iff a b).1 h
  simp only [Prod.mk.injEq] at this
  exact this

/-- Two successful iterations over sequences with the same members, from the same start
value, end on the same numeric triple. -/
theorem ForEach_triple_eq (refs refs' : List TagObjectResult) (cur v v' : version)
    (hmem : ∀ r, r ∈ refs ↔ r ∈ refs')
    (h : ForEach refs cur = .ok v) (h' : ForEach refs' cur = .ok v') :
    v'.triple = v.triple := by
  obtain ⟨a1, a2, a3⟩ := ForEach_ok refs cur v h
  obtain ⟨b1, b2, b3⟩ := ForEach_ok refs' cur v' h'
  apply le_antisymm
  · rcases b3 with b3 | ⟨name, hm, hx⟩
    · rw [b3]; exact a1
    · exact a2 name v' ((hmem _).2 hm) hx
  · rcases a3 with a3 | ⟨name, hm, hx⟩
    · rw [a3]; exact b1
    · exact b2 name v ((hmem _).1 hm) hx

/-- A successful call of the callback keeps the accumulator or replaces it by a parsed
version that is strictly greater. -/
theorem tagCallback_ok_strict (cur v : version) (r : TagObjectResult)
    (h : tagCallback cur r = .ok v) :
    v = cur ∨ ∃ name, r = .object name ∧ parseTagName name = .ok (some v) ∧
      cur.triple < v.triple := by
  cases r with
  | object name =>
    simp only [tagCallback] at h
    cases hp : parseTagName name with
    | error e => rw [hp] at h; simp at h
    | ok o =>
      cases o with
      | none =>
        rw [hp] at h
        simp only [Result.ok.injEq] at h
        exact Or.inl h.symm
      | some w =>
        rw [hp] at h
        simp only at h
        by_cases hg : w.isGreaterThan cur = true
        · rw [if_pos hg] at h
          simp only [Result.ok.injEq] at h
          subst h
          exact Or.inr ⟨name, rfl, hp, (isGreaterThan_iff_triple _ _).1 hg⟩
        · rw [if_neg hg] at h
          simp only [Result.ok.injEq] at h
          exact Or.inl h.symm
  | ErrObjectNotFound =>
    simp only [tagCallback, Result.ok.injEq] at h
    exact Or.inl h.symm
  | otherErr e => simp [tagCallback] at h

/-- The result of a successful iteration is the start value, or a parsed version that is
strictly greater than the start value. -/
theorem ForEach_ok_strict (refs : List TagObjectResult) (cur v : version)
    (h : ForEach refs cur = .ok v) :
    v = cur ∨ ∃ name, TagObjectResult.object name ∈ refs ∧
      parseTagName name = .ok (some v) ∧ cur.triple < v.triple := by
  induction refs generalizing cur with
  | nil =>
    simp only [ForEach, Result.ok.injEq] at h
    exact Or.inl h.symm
  | cons r rest ih =>
    rw [ForEach_cons] at h
    cases hc : tagCallback cur r with
    | error e => rw [hc] at h; simp at h
    | ok w =>
      rw [hc] at h
      have hle : cur.triple ≤ w.triple := (tagCallback_ok cur w r hc).1
      rcases ih w h with i | ⟨name, hm, hx, hlt⟩
      · subst i
        rcases tagCallback_ok_strict cur v r hc with c | ⟨name, hn, hx, hlt⟩
        · exact Or.inl c
        · exact Or.inr ⟨name, by rw [hn]; exact List.mem_cons_self _ _, hx, hlt⟩
      · exact Or.inr ⟨name, List.mem_cons_of_mem _ hm, hx, lt_of_le_of_lt hle hlt⟩

theorem version_eq_of_fields (a b : version) (h1 : a.Major = b.Major)
    (h2 : a.Minor = b.Minor) (h3 : a.Patch = b.Patch) (h4 : a.Label = b.Label) : a = b := by
  cases a
  cases b
  simp only at h1 h2 h3 h4
  simp [h1, h2, h3, h4]

/-- Two successful iterations over sequences with the same members, from the same start
value, end on the same version when the parsed versions that carry the final numeric
triple all have one label. -/
theorem ForEach_eq_of_labels (refs refs' : List TagObjectResult) (cur v v' : version)
    (hmem : ∀ r, r ∈ refs ↔ r ∈ refs')
    (h : ForEach refs cur = .ok v) (h' : ForEach refs' cur = .ok v')
    (hlab : ∀ name name' w w', TagObjectResult.object name ∈ refs →
      TagObjectResult.object name' ∈ refs →
      parseTagName name = .ok (some w) → parseTagName name' = .ok (some w') →
      (w.Major, w.Minor, w.Patch) = (v.Major, v.Minor, v.Patch) →
      (w'.Major, w'.Minor, w'.Patch) = (v.Major, v.Minor, v.Patch) →
      w.Label = w'.Label) :
    v' = v := by
  have ht : v'.triple = v.triple := ForEach_triple_eq refs refs' cur v v' hmem h h'
  rcases ForEach_ok_strict refs cur v h with a | ⟨name, hm, hx, hlt⟩
  · rcases ForEach_ok_strict refs' cur v' h' with b | ⟨name', hm', hx', hlt'⟩
    · rw [a, b]
    · rw [ht, a] at hlt'
      exact absurd hlt' (lt_irrefl _)
  · rcases ForEach_ok_strict refs' cur v' h' with b | ⟨name', hm', hx', hlt'⟩
    · rw [← ht, b] at hlt
      exact absurd hlt (lt_irrefl _)
    · obtain ⟨c1, c2, c3⟩ := triple_components v' v ht
      have hl := hlab name' name v' v ((hmem _).2 hm') hm hx' hx
        ((triple_eq_iff v' v).1 ht) rfl
      exact version_eq_of_fields v' v c1 c2 c3 hl

/-! ## Machine-integer lemmas -/

theorem addInt_one (x : Int) (h1 : minInt ≤ x) (h2 : x < maxInt) : addInt x 1 = x + 1 := by
  unfold addInt wrapInt
  unfold minInt at h1
  unfold maxInt at h2
  omega

/-! ## Session lemmas -/

theorem Sanitize_of_clean (s : GoString)
    (h : ∀ c ∈ s, c ≠ Char.ofNat 0xFFFD ∧ IsControl c = false) : Sanitize s = s := by
  induction s with
  | nil => rfl
  | cons c cs ih =>
    obtain ⟨h1, h2⟩ := h c (List.mem_cons_self _ _)
    have h3 : ¬ (c = '\r' ∨ c = '\n') := by
      rintro (hc | hc) <;> subst hc <;> exact absurd h2 (by decide)
    have h4 : c ≠ '\t' := by
      intro hc; subst hc; exact absurd h2 (by decide)
    rw [Sanitize, if_neg h1, if_neg h3, if_neg h4, h2,
      ih (fun c' hc' => h c' (List.mem_cons_of_mem _ hc'))]
    simp

/-- What the buffer holds after `SetValue` under the character limit of the session. -/
theorem SetValue_Value (t : textinput.Model) (s : GoString) (h : t.CharLimit = 156) :
    (t.SetValue s).Value = (Sanitize s).take 156 := by
  simp only [textinput.Model.SetValue, textinput.Model.Value, h]
  by_cases hl : (156 : Int) > 0 ∧ ((Sanitize s).length : Int) > 156
  · rw [if_pos hl]
    rfl
  · rw [if_neg hl]
    have hle : (Sanitize s).length ≤ 156 := by omega
    rw [List.take_of_length_le hle]

theorem Update_right_empty {T C : Type} (ti : TextInput T C) (repo : Repository)
    (m : model T) (h : ti.Value m.annotation = []) :
    model.Update ti repo m (.KeyMsg "right".toList) =
      ({ m with annotation := ti.SetValue m.annotation m.commitMessage }, none, []) := by
  have hk1 : ¬ ("right".toList = "ctrl+c".toList ∨ "right".toList = "q".toList) := by decide
  have hk2 : ¬ ("right".toList = "enter".toList) := by decide
  have hlen : (ti.Value m.annotation).length = 0 := by rw [h]; rfl
  simp only [model.Update, if_neg hk1, if_neg hk2, if_true, hlen]

/-- With a non-empty buffer the key `right` returns the model as it is: the `Update` of
the text input is not called. -/
theorem Update_right_nonempty {T C : Type} (ti : TextInput T C) (repo : Repository)
    (m : model T) (h : ti.Value m.annotation ≠ []) :
    model.Update ti repo m (.KeyMsg "right".toList) = (m, none, []) := by
  have hk1 : ¬ ("right".toList = "ctrl+c".toList ∨ "right".toList = "q".toList) := by decide
  have hk2 : ¬ ("right".toList = "enter".toList) := by decide
  have hlen : ¬ ((ti.Value m.annotation).length = 0) :=
    fun hl => h (List.length_eq_zero.1 hl)
  simp only [model.Update, if_neg hk1, if_neg hk2, if_true, if_neg hlen]

/-- The key `left` takes the default branch: it is handed to the `Update` of the text
input. -/
theorem Update_left {T C : Type} (ti : TextInput T C) (repo : Repository) (m : model T) :
    model.Update ti repo m (.KeyMsg "left".toList) =
      ({ m with annotation := (ti.Update m.annotation (.KeyMsg "left".toList)).1 },
        (ti.Update m.annotation (.KeyMsg "left".toList)).2.map Cmd.input, []) := by
  have hk1 : ¬ ("left".toList = "ctrl+c".toList ∨ "left".toList = "q".toList) := by decide
  have hk2 : ¬ ("left".toList = "enter".toList) := by decide
  have hk3 : ¬ ("left".toList = "right".toList) := by decide
  simp only [model.Update, if_neg hk1, if_neg hk2, if_neg hk3]

/-- Every session `initialModel` starts has an empty buffer and the character limit 156. -/
theorem initialModel_annotation (repo : Repository) (newVersion : version)
    (m : model textinput.Model) (h : initialModel repo newVersion = .ok m) :
    m.annotation.CharLimit = 156 ∧ m.annotation.Value = [] ∧
      m.annotation.Placeholder = m.commitMessage := by
  unfold initialModel at h
  cases hv : getLatestVersion repo with
  | error e => rw [hv] at h; simp at h
  | ok v =>
    cases hc : getLastCommitMessage repo with
    | error e => rw [hv, hc] at h; simp at h
    | ok msg =>
      rw [hv, hc] at h
      simp only [Result.ok.injEq] at h
      subst h
      exact ⟨rfl, rfl, rfl⟩

/-- After the key `right` on an empty buffer, the buffer holds the sanitized last commit
message cut to the character limit of the session. -/
theorem Update_right_empty_Value {C : Type}
    (u : textinput.Model → Msg → textinput.Model × Option C) (repo : Repository)
    (m : model textinput.Model) (hlimit : m.annotation.CharLimit = 156)
    (hempty : (bubbles u).Value m.annotation = []) :
    (bubbles u).Value (model.annotation
        (model.Update (bubbles u) repo m (.KeyMsg "right".toList)).1) =
      (Sanitize m.commitMessage).take 156 := by
  rw [Update_right_empty (bubbles u) repo m hempty]
  exact SetValue_Value m.annotation _ hlimit

/-! ## Claims -/

/-- C5: `a.isGreaterThan(b)` holds exactly when the numeric triple of `a` is
lexicographically greater than that of `b`; when the triples differ exactly one of
`a.isGreaterThan(b)` and `b.isGreaterThan(a)` holds, and when they are equal neither
holds, whatever the labels. -/
theorem isGreaterThan_lexicographic (a b : version) :
    (a.isGreaterThan b = true ↔ b.triple < a.triple) ∧
    ((a.Major, a.Minor, a.Patch) ≠ (b.Major, b.Minor, b.Patch) →
      Xor' (a.isGreaterThan b = true) (b.isGreaterThan a = true)) ∧
    ((a.Major, a.Minor, a.Patch) = (b.Major, b.Minor, b.Patch) →
      a.isGreaterThan b = false ∧ b.isGreaterThan a = false) := by
  refine ⟨isGreaterThan_iff_triple a b, ?_, ?_⟩
  · intro hne
    have hne' : a.triple ≠ b.triple := fun h => hne ((triple_eq_iff a b).1 h)
    rw [isGreaterThan_iff_triple, isGreaterThan_iff_triple]
    rcases lt_or_gt_of_ne hne' with h | h
    · exact Or.inr ⟨h, lt_asymm h⟩
    · exact Or.inl ⟨h, lt_asymm h⟩
  · intro heq
    have heq' : a.triple = b.triple := (triple_eq_iff a b).2 heq
    rw [isGreaterThan_false_iff, isGreaterThan_false_iff]
    exact ⟨le_of_eq heq', le_of_eq heq'.symm⟩

/-- Witness of C5 at `v1.2.3-rc1` against `v1.3.0` and against `v1.2.3`. -/
theorem isGreaterThan_lexicographic_witness :
    Xor' ((version.mk 1 2 3 "rc1".toList).isGreaterThan (version.mk 1 3 0 []) = true)
        ((version.mk 1 3 0 []).isGreaterThan (version.mk 1 2 3 "rc1".toList) = true) ∧
    ((version.mk 1 2 3 "rc1".toList).isGreaterThan (version.mk 1 2 3 []) = false ∧
      (version.mk 1 2 3 []).isGreaterThan (version.mk 1 2 3 "rc1".toList) = false) :=
  ⟨(isGreaterThan_lexicographic (version.mk 1 2 3 "rc1".toList) (version.mk 1 3 0 [])).2.1
      (by decide),
   (isGreaterThan_lexicographic (version.mk 1 2 3 "rc1".toList) (version.mk 1 2 3 [])).2.2
      (by decide)⟩

/-- C1: when `getLatestVersion` does not fail on a sequence of annotated tag names, no
version parsed from the sequence is greater than the returned one, and the returned version
is `0.0.0` with an empty label when no name of the sequence (possibly empty) has exactly
three dot-separated segments. -/
theorem getLatestVersion_maximum (repo : Repository) (names : List GoString)
    (hTags : repo.Tags = .ok (names.map TagObjectResult.object)) :
    (∀ v, getLatestVersion repo = .ok v →
      ∀ name ∈ names, ∀ w, parseTagName name = .ok (some w) →
        w.isGreaterThan v = false ∧ w.triple ≤ v.triple) ∧
    ((∀ name ∈ names, (Split name '.').length ≠ 3) →
      getLatestVersion repo = .ok { Major := 0, Minor := 0, Patch := 0, Label := [] }) := by
  rw [getLatestVersion_of_tags repo _ hTags]
  constructor
  · intro v hv name hname w hw
    have hle := (ForEach_ok _ _ v hv).2.1 name w (List.mem_map.2 ⟨name, hname, rfl⟩) hw
    exact ⟨(isGreaterThan_false_iff w v).2 hle, hle⟩
  · intro hall
    apply ForEach_all_skip
    intro r hr c
    obtain ⟨name, hname, rfl⟩ := List.mem_map.1 hr
    exact tagCallback_skip _ (Or.inr ⟨name, rfl, hall name hname⟩) c

/-- Witness of C1 on the tags `v0.9.0`, `v1.2.3`, `release-candidate`, and on the single
tag `release-candidate`. -/
theorem getLatestVersion_maximum_witness :
    ((version.mk 0 9 0 []).isGreaterThan (version.mk 1 2 3 []) = false ∧
      (version.mk 0 9 0 []).triple ≤ (version.mk 1 2 3 []).triple) ∧
    getLatestVersion (repoWithTags [.object "release-candidate".toList]) =
      .ok { Major := 0, Minor := 0, Patch := 0, Label := [] } :=
  ⟨(getLatestVersion_maximum
      (repoWithTags (["v0.9.0".toList, "v1.2.3".toList, "release-candidate".toList].map
        TagObjectResult.object))
      ["v0.9.0".toList, "v1.2.3".toList, "release-candidate".toList] rfl).1
      (version.mk 1 2 3 []) (by decide) "v0.9.0".toList (by decide) (version.mk 0 9 0 [])
      (by decide),
   (getLatestVersion_maximum (repoWithTags [.object "release-candidate".toList])
      ["release-candidate".toList] rfl).2 (by decide)⟩

/-- C6: a sequence of tags that contains, at any position, an annotated tag whose name has
exactly three dot-separated segments and whose major part (after stripping a leading `v`),
minor part, or patch part (the third segment up to its first `-`) is not an integer makes
`getLatestVersion` return an error, whatever else the sequence contains. -/
theorem getLatestVersion_strict (repo : Repository) (refs : List TagObjectResult)
    (name p0 p1 p2 : GoString)
    (hTags : repo.Tags = .ok refs)
    (hmem : TagObjectResult.object name ∈ refs)
    (hsplit : Split name '.' = [p0, p1, p2])
    (hbad : isInteger (TrimPrefix p0 'v') = false ∨ isInteger p1 = false ∨
      isInteger ((Split p2 '-').getD 0 []) = false) :
    ∃ e, getLatestVersion repo = .error e := by
  rw [getLatestVersion_of_tags repo _ hTags]
  apply ForEach_error_of_mem refs _ (.object name) hmem
  intro c
  have hno : ∀ s, isInteger s = false → ∃ e, Atoi s = .error e := by
    intro s hs
    apply (Atoi_error_iff s).2
    intro h
    rw [h.1] at hs
    simp at hs
  simp only [tagCallback, parseTagName, hsplit]
  cases h0 : Atoi (TrimPrefix p0 'v') with
  | error e => exact ⟨_, rfl⟩
  | ok mjr =>
    cases h1 : Atoi p1 with
    | error e => exact ⟨_, rfl⟩
    | ok mnr =>
      cases h2 : Atoi ((Split p2 '-').getD 0 []) with
      | error e => exact ⟨_, rfl⟩
      | ok patch =>
        exfalso
        rcases hbad with hb | hb | hb
        · obtain ⟨e, he⟩ := hno _ hb
          rw [he] at h0
          simp at h0
        · obtain ⟨e, he⟩ := hno _ hb
          rw [he] at h1
          simp at h1
        · obtain ⟨e, he⟩ := hno _ hb
          rw [he] at h2
          simp at h2

/-- Witness of C6 on the tags `v1.0.0`, `v1.x.0`, `v2.0.0`. -/
theorem getLatestVersion_strict_witness :
    ∃ e, getLatestVersion (repoWithTags
      [.object "v1.0.0".toList, .object "v1.x.0".toList, .object "v2.0.0".toList])
      = .error e :=
  getLatestVersion_strict _
    [.object "v1.0.0".toList, .object "v1.x.0".toList, .object "v2.0.0".toList]
    "v1.x.0".toList "v1".toList "x".toList "0".toList rfl (by decide) (by decide)
    (Or.inr (Or.inl (by decide)))

/-- C8: inserting, at any position of a sequence of tags, a tag that is lightweight or
whose name does not split on `.` into exactly three segments leaves the outcome of
`getLatestVersion` unchanged (same version or same error), and the callback returns no
error on the inserted tag. -/
theorem getLatestVersion_skip (repo repo' : Repository) (pre post : List TagObjectResult)
    (t : TagObjectResult)
    (ht : t = .ErrObjectNotFound ∨ ∃ name, t = .object name ∧ (Split name '.').length ≠ 3)
    (hTags : repo.Tags = .ok (pre ++ t :: post))
    (hTags' : repo'.Tags = .ok (pre ++ post)) :
    getLatestVersion repo = getLatestVersion repo' ∧
    ∀ currentVersion, tagCallback currentVersion t = .ok currentVersion := by
  rw [getLatestVersion_of_tags repo _ hTags, getLatestVersion_of_tags repo' _ hTags']
  exact ⟨ForEach_skip pre post t _ (tagCallback_skip t ht), tagCallback_skip t ht⟩

/-- Witness of C8: `release-candidate` inserted between `v1.2.3` and `v1.3.0`. -/
theorem getLatestVersion_skip_witness :
    getLatestVersion (repoWithTags [.object "v1.2.3".toList,
        .object "release-candidate".toList, .object "v1.3.0".toList]) =
      getLatestVersion (repoWithTags [.object "v1.2.3".toList, .object "v1.3.0".toList]) ∧
    ∀ currentVersion,
      tagCallback currentVersion (.object "release-candidate".toList) = .ok currentVersion :=
  getLatestVersion_skip _ _ [.object "v1.2.3".toList] [.object "v1.3.0".toList]
    (.object "release-candidate".toList)
    (Or.inr ⟨"release-candidate".toList, rfl, by decide⟩) rfl rfl

/-- Counterexample to C9: the annotated tags `v1.2.3-rc1`, `v1.2.3` resolve to the label
`rc1` in this order and to the empty label in the other order. -/
theorem getLatestVersion_order_dependent :
    List.Perm [TagObjectResult.object "v1.2.3-rc1".toList, .object "v1.2.3".toList]
      [.object "v1.2.3".toList, .object "v1.2.3-rc1".toList] ∧
    getLatestVersion (repoWithTags [.object "v1.2.3-rc1".toList, .object "v1.2.3".toList]) =
      .ok { Major := 1, Minor := 2, Patch := 3, Label := "rc1".toList } ∧
    getLatestVersion (repoWithTags [.object "v1.2.3".toList, .object "v1.2.3-rc1".toList]) =
      .ok { Major := 1, Minor := 2, Patch := 3, Label := [] } ∧
    getLatestVersion (repoWithTags [.object "v1.2.3-rc1".toList, .object "v1.2.3".toList]) ≠
      getLatestVersion (repoWithTags [.object "v1.2.3".toList, .object "v1.2.3-rc1".toList]) :=
  ⟨List.Perm.swap _ _ _, by decide, by decide, by decide⟩

/-- C9 (amended): when `getLatestVersion` succeeds on a sequence of tags, it succeeds on
every permutation of the sequence and returns a version with the same major, minor and
patch numbers; it returns the very same version, label included, unless two tags of the
sequence parse to versions that carry these numbers with different labels. -/
theorem getLatestVersion_perm (repo repo' : Repository) (refs refs' : List TagObjectResult)
    (v : version)
    (hTags : repo.Tags = .ok refs) (hTags' : repo'.Tags = .ok refs')
    (hperm : List.Perm refs refs')
    (hv : getLatestVersion repo = .ok v) :
    (∃ v', getLatestVersion repo' = .ok v' ∧
      v'.Major = v.Major ∧ v'.Minor = v.Minor ∧ v'.Patch = v.Patch) ∧
    ((∀ name name' w w', TagObjectResult.object name ∈ refs →
        TagObjectResult.object name' ∈ refs →
        parseTagName name = .ok (some w) → parseTagName name' = .ok (some w') →
        (w.Major, w.Minor, w.Patch) = (v.Major, v.Minor, v.Patch) →
        (w'.Major, w'.Minor, w'.Patch) = (v.Major, v.Minor, v.Patch) →
        w.Label = w'.Label) →
      getLatestVersion repo' = .ok v) := by
  rw [getLatestVersion_of_tags repo _ hTags] at hv
  rw [getLatestVersion_of_tags repo' _ hTags']
  have hok := (ForEach_isOk_iff refs _).1 ⟨v, hv⟩
  obtain ⟨v', hv'⟩ := (ForEach_isOk_iff refs' _).2 (fun r hr => hok r (hperm.mem_iff.2 hr))
  refine ⟨⟨v', hv', triple_components v' v
    (ForEach_triple_eq refs refs' _ v v' (fun r => hperm.mem_iff) hv hv')⟩, ?_⟩
  intro hlab
  rw [hv', ForEach_eq_of_labels refs refs' _ v v' (fun r => hperm.mem_iff) hv hv' hlab]

/-- Witness of C9 (amended) on the tags `v1.2.3-rc1`, `v1.0.0` and their swap. -/
theorem getLatestVersion_perm_witness :
    (∃ v', getLatestVersion (repoWithTags
        [.object "v1.0.0".toList, .object "v1.2.3-rc1".toList]) = .ok v' ∧
      v'.Major = 1 ∧ v'.Minor = 2 ∧ v'.Patch = 3) ∧
    getLatestVersion (repoWithTags [.object "v1.0.0".toList, .object "v1.2.3-rc1".toList]) =
      .ok (version.mk 1 2 3 "rc1".toList) :=
  ⟨(getLatestVersion_perm
      (repoWithTags [.object "v1.2.3-rc1".toList, .object "v1.0.0".toList])
      (repoWithTags [.object "v1.0.0".toList, .object "v1.2.3-rc1".toList])
      _ _ (version.mk 1 2 3 "rc1".toList) rfl rfl (List.Perm.swap _ _ _) (by decide)).1,
   (getLatestVersion_perm
      (repoWithTags [.object "v1.2.3-rc1".toList, .object "v1.0.0".toList])
      (repoWithTags [.object "v1.0.0".toList, .object "v1.2.3-rc1".toList])
      _ _ (version.mk 1 2 3 "rc1".toList) rfl rfl (List.Perm.swap _ _ _) (by decide)).2
      (by
        have e1 : parseTagName "v1.2.3-rc1".toList =
            .ok (some (version.mk 1 2 3 "rc1".toList)) := by decide
        have e2 : parseTagName "v1.0.0".toList = .ok (some (version.mk 1 0 0 [])) := by
          decide
        intro name name' w w' h1 h2 p1 p2 t1 t2
        simp only [List.mem_cons, TagObjectResult.object.injEq, List.mem_singleton,
          List.not_mem_nil, or_false] at h1 h2
        rcases h1 with h1 | h1 <;> rcases h2 with h2 | h2 <;> subst h1 <;> subst h2
        · rw [p1] at p2
          simp only [Result.ok.injEq, Option.some.injEq] at p2
          rw [p2]
        · rw [e2] at p2
          simp only [Result.ok.injEq, Option.some.injEq] at p2
          subst p2
          exact absurd t2 (by decide)
        · rw [e2] at p1
          simp only [Result.ok.injEq, Option.some.injEq] at p1
          subst p1
          exact absurd t1 (by decide)
        · rw [p1] at p2
          simp only [Result.ok.injEq, Option.some.injEq] at p2
          rw [p2])⟩

/-- Counterexample to C2: at the largest `int` the increment wraps around. The tag
`v0.0.9223372036854775807` resolves to patch number `9223372036854775807`, and the patch
command builds patch number `-9223372036854775808` from it, not `9223372036854775808`. -/
theorem patchNewVersion_wraps :
    getLatestVersion (repoWithTags [.object "v0.0.9223372036854775807".toList]) =
      .ok { Major := 0, Minor := 0, Patch := 9223372036854775807, Label := [] } ∧
    patchVersionCmd (repoWithTags [.object "v0.0.9223372036854775807".toList]) [] =
      .ok { Major := 0, Minor := 0, Patch := -9223372036854775808, Label := [] } ∧
    patchNewVersion { Major := 0, Minor := 0, Patch := 9223372036854775807, Label := [] } [] ≠
      { Major := 0, Minor := 0, Patch := 9223372036854775807 + 1, Label := [] } := by
  refine ⟨by decide, by decide, by decide⟩

/-- C2 (amended): from a current version `c` whose incremented number is below the largest
`int`, the patch command builds `{c.Major, c.Minor, c.Patch+1, l}`, the minor command
`{c.Major, c.Minor+1, 0, ""}` and the major command `{c.Major+1, 0, 0, ""}`; from `v1.2.3`
they format as `v1.2.4`, `v1.3.0`, `v2.0.0`, and a patch bump of `0.0.0` as `v0.0.1`. -/
theorem newVersion_bump (c : version) (l : GoString) :
    (minInt ≤ c.Patch → c.Patch < maxInt →
      patchNewVersion c l =
        { Major := c.Major, Minor := c.Minor, Patch := c.Patch + 1, Label := l }) ∧
    (minInt ≤ c.Minor → c.Minor < maxInt →
      minorNewVersion c =
        { Major := c.Major, Minor := c.Minor + 1, Patch := 0, Label := [] }) ∧
    (minInt ≤ c.Major → c.Major < maxInt →
      majorNewVersion c = { Major := c.Major + 1, Minor := 0, Patch := 0, Label := [] }) ∧
    (patchNewVersion { Major := 1, Minor := 2, Patch := 3, Label := [] } []).String
      = "v1.2.4".toList ∧
    (minorNewVersion { Major := 1, Minor := 2, Patch := 3, Label := [] }).String
      = "v1.3.0".toList ∧
    (majorNewVersion { Major := 1, Minor := 2, Patch := 3, Label := [] }).String
      = "v2.0.0".toList ∧
    (patchNewVersion { Major := 0, Minor := 0, Patch := 0, Label := [] } []).String
      = "v0.0.1".toList := by
  refine ⟨?_, ?_, ?_, by decide, by decide, by decide, by decide⟩
  · intro h1 h2
    simp only [patchNewVersion, addInt_one _ h1 h2]
  · intro h1 h2
    simp only [minorNewVersion, addInt_one _ h1 h2]
  · intro h1 h2
    simp only [majorNewVersion, addInt_one _ h1 h2]

/-- Witness of C2 (amended) at `v1.2.3` with label `rc1`. -/
theorem newVersion_bump_witness :
    patchNewVersion { Major := 1, Minor := 2, Patch := 3, Label := [] } "rc1".toList =
      { Major := 1, Minor := 2, Patch := 3 + 1, Label := "rc1".toList } ∧
    minorNewVersion { Major := 1, Minor := 2, Patch := 3, Label := [] } =
      { Major := 1, Minor := 2 + 1, Patch := 0, Label := [] } ∧
    majorNewVersion { Major := 1, Minor := 2, Patch := 3, Label := [] } =
      { Major := 1 + 1, Minor := 0, Patch := 0, Label := [] } :=
  ⟨(newVersion_bump { Major := 1, Minor := 2, Patch := 3, Label := [] } "rc1".toList).1
      (by decide) (by decide),
   (newVersion_bump { Major := 1, Minor := 2, Patch := 3, Label := [] } "rc1".toList).2.1
      (by decide) (by decide),
   (newVersion_bump { Major := 1, Minor := 2, Patch := 3, Label := [] } "rc1".toList).2.2.1
      (by decide) (by decide)⟩

/-- C4: `v.String()` is `v`, the decimal numerals of the major, minor and patch numbers
separated by dots, followed by `-` and the label exactly when the label is non-empty;
`updateVersion` creates the tag under this name. -/
theorem String_canonical (v : version) :
    (v.Label ≠ [] →
      v.String = ['v'] ++ decimal v.Major ++ ['.'] ++ decimal v.Minor ++ ['.'] ++
        decimal v.Patch ++ ['-'] ++ v.Label) ∧
    (v.Label = [] →
      v.String = ['v'] ++ decimal v.Major ++ ['.'] ++ decimal v.Minor ++ ['.'] ++
        decimal v.Patch) ∧
    (∀ (repo : Repository) ( annotation : GoString),
      (updateVersion repo v annotation).1 = none →
        ∃ hash, Effect.tagCreated v.String hash annotation ∈
          (updateVersion repo v annotation).2) ∧
    (∀ (repo : Repository) ( annotation name : GoString) (hash : Hash) (message : GoString),
      Effect.tagCreated name hash message ∈ (updateVersion repo v annotation).2 →
        name = v.String ∧ message = annotation) := by
  refine ⟨?_, ?_, ?_, ?_⟩
  · intro h
    unfold version.String
    rw [if_pos h]
    simp only [fmtInt_eq_decimal]
  · intro h
    unfold version.String
    rw [if_neg (by simp [h])]
    simp only [fmtInt_eq_decimal]
  · intro repo annotation h
    unfold updateVersion at h ⊢
    cases hh : repo.Head with
    | error e => rw [hh] at h; simp at h
    | ok ref =>
      rw [hh] at h
      simp only at h ⊢
      cases hv : repo.Validate ref annotation with
      | some e => rw [hv] at h; simp at h
      | none =>
        rw [hv] at h
        simp only at h ⊢
        cases hc : repo.CreateTag v.String ref annotation with
        | some e => rw [hc] at h; simp at h
        | none => exact ⟨ref, by simp⟩
  · intro repo annotation name hash message h
    unfold updateVersion at h
    cases hh : repo.Head with
    | error e => rw [hh] at h; simp at h
    | ok ref =>
      rw [hh] at h
      simp only at h
      cases hv : repo.Validate ref annotation with
      | some e => rw [hv] at h; simp at h
      | none =>
        rw [hv] at h
        simp only at h
        cases hc : repo.CreateTag v.String ref annotation with
        | some e => rw [hc] at h; simp at h
        | none =>
          rw [hc] at h
          simp only [List.mem_cons, Effect.tagCreated.injEq, reduceCtorEq,
            List.mem_singleton, or_false, List.not_mem_nil] at h
          exact ⟨h.1, h.2.2⟩

/-- Witness of C4 at `v2.1.0-rc1` and at `v1.2.3`, created with the annotation `msg`. -/
theorem String_canonical_witness :
    (version.mk 2 1 0 "rc1".toList).String =
      ['v'] ++ decimal 2 ++ ['.'] ++ decimal 1 ++ ['.'] ++ decimal 0 ++ ['-'] ++ "rc1".toList ∧
    (version.mk 1 2 3 []).String =
      ['v'] ++ decimal 1 ++ ['.'] ++ decimal 2 ++ ['.'] ++ decimal 3 ∧
    (∃ hash, Effect.tagCreated (version.mk 1 2 3 []).String hash "msg".toList ∈
      (updateVersion (repoWithTags []) (version.mk 1 2 3 []) "msg".toList).2) ∧
    ("v1.2.3".toList = (version.mk 1 2 3 []).String ∧ "msg".toList = "msg".toList) :=
  ⟨(String_canonical (version.mk 2 1 0 "rc1".toList)).1 (by decide),
   (String_canonical (version.mk 1 2 3 [])).2.1 rfl,
   (String_canonical (version.mk 1 2 3 [])).2.2.1 (repoWithTags []) "msg".toList
      (by decide),
   (String_canonical (version.mk 1 2 3 [])).2.2.2 (repoWithTags []) "msg".toList
      "v1.2.3".toList 0 "msg".toList (by decide)⟩

/-- Counterexample to C3: the label `a-b` comes back as `a`, and with the label `a.b` the
formatted name is not parsed as a version at all. -/
theorem parse_String_label_lost :
    (version.mk 1 2 3 "a-b".toList).String = "v1.2.3-a-b".toList ∧
    parseTagName (version.mk 1 2 3 "a-b".toList).String =
      .ok (some { Major := 1, Minor := 2, Patch := 3, Label := "a".toList }) ∧
    parseTagName (version.mk 1 2 3 "a-b".toList).String ≠
      .ok (some (version.mk 1 2 3 "a-b".toList)) ∧
    parseTagName (version.mk 1 2 3 "a.b".toList).String = .ok none := by
  refine ⟨by decide, by decide, by decide, by decide⟩

/-- C3 (amended): for all major, minor and patch numbers between `0` and the largest `int`
and every label that contains neither `.` nor `-` (the empty label included), parsing the
string produced by `version.String()` with the tag-name parse of `getLatestVersion`
succeeds and yields the same version; `v2.1.0-rc1` parses to `{2,1,0,"rc1"}`, which
formats back to `v2.1.0-rc1`. -/
theorem parse_String_roundtrip :
    (∀ (major minor patch : Int) (label : GoString),
      0 ≤ major → major ≤ maxInt → 0 ≤ minor → minor ≤ maxInt → 0 ≤ patch → patch ≤ maxInt →
      '.' ∉ label → '-' ∉ label →
      parseTagName (version.mk major minor patch label).String =
        .ok (some (version.mk major minor patch label))) ∧
    parseTagName "v2.1.0-rc1".toList =
      .ok (some { Major := 2, Minor := 1, Patch := 0, Label := "rc1".toList }) ∧
    (version.mk 2 1 0 "rc1".toList).String = "v2.1.0-rc1".toList := by
  refine ⟨?_, by decide, by decide⟩
  intro major minor patch label h1 h1' h2 h2' h3 h3' hdot hdash
  have hsplit := Split_String (version.mk major minor patch label) h1 h2 h3 hdot
  simp only at hsplit
  have htrim : TrimPrefix ('v' :: fmtInt major) 'v' = fmtInt major := by simp [TrimPrefix]
  have d3 := not_mem_of_isDecimal _ (fmtInt_isDecimal _ h3) '-' (by decide)
  unfold parseTagName
  rw [hsplit]
  simp only [htrim, Atoi_fmtInt major h1 h1', Atoi_fmtInt minor h2 h2']
  by_cases hl : label = []
  · subst hl
    rw [if_pos rfl, List.append_nil, Split_of_not_mem _ _ d3]
    simp [Atoi_fmtInt patch h3 h3']
  · rw [if_neg hl, Split_append_sep _ _ _ d3, Split_of_not_mem _ _ hdash]
    simp [Atoi_fmtInt patch h3 h3']

/-- Witness of C3 (amended) at `v10.0.7-beta`. -/
theorem parse_String_roundtrip_witness :
    parseTagName (version.mk 10 0 7 "beta".toList).String =
      .ok (some (version.mk 10 0 7 "beta".toList)) :=
  parse_String_roundtrip.1 10 0 7 "beta".toList (by decide) (by decide) (by decide)
    (by decide) (by decide) (by decide) (by decide) (by decide)

/-- Counterexample to C7: the name `v-1.2.3` has three segments and the major segment
`-1` is not a non-negative integer, yet the parse succeeds with major number `-1`; the
name `v9223372036854775808.0.0` has three segments that are all non-negative integers, yet
the parse fails. -/
theorem parseTagName_not_nonneg :
    Split "v-1.2.3".toList '.' = ["v-1".toList, "2".toList, "3".toList] ∧
    TrimPrefix "v-1".toList 'v' = "-1".toList ∧
    ¬ isNonNegInteger "-1".toList ∧
    parseTagName "v-1.2.3".toList =
      .ok (some { Major := -1, Minor := 2, Patch := 3, Label := [] }) ∧
    Split "v9223372036854775808.0.0".toList '.' =
      ["v9223372036854775808".toList, "0".toList, "0".toList] ∧
    isNonNegInteger (TrimPrefix "v9223372036854775808".toList 'v') ∧
    isNonNegInteger "0".toList ∧
    isNonNegInteger ((Split "0".toList '-').getD 0 []) ∧
    parseTagName "v9223372036854775808.0.0".toList = .error (.parseMajor .ErrRange) := by
  refine ⟨by decide, by decide, by decide, by decide, by decide, by decide, by decide,
    by decide, by decide⟩

/-- C7 (amended): for every tag name with exactly three dot-separated segments, the
tag-name parse succeeds exactly when the major segment (after stripping a leading `v`), the
minor segment and the part of the third segment before `-` are each a decimal integer
literal (an optional sign `+` or `-`, then one or more digits) whose value fits `int`, and
it fails otherwise; on success the three numbers are the values of these literals. -/
theorem parseTagName_three_segments (Name p0 p1 p2 : GoString)
    (hsplit : Split Name '.' = [p0, p1, p2]) :
    ((∃ v, parseTagName Name = .ok (some v)) ↔
      (isIntLiteral (TrimPrefix p0 'v') ∧ isIntLiteral p1 ∧
        isIntLiteral ((Split p2 '-').getD 0 []))) ∧
    ((∃ e, parseTagName Name = .error e) ↔
      ¬ (isIntLiteral (TrimPrefix p0 'v') ∧ isIntLiteral p1 ∧
        isIntLiteral ((Split p2 '-').getD 0 []))) ∧
    (∀ v, parseTagName Name = .ok (some v) →
      v.Major = integerValue (TrimPrefix p0 'v') ∧ v.Minor = integerValue p1 ∧
        v.Patch = integerValue ((Split p2 '-').getD 0 [])) := by
  unfold parseTagName
  rw [hsplit]
  simp only
  cases h0 : Atoi (TrimPrefix p0 'v') with
  | error e =>
    have n0 : ¬ isIntLiteral (TrimPrefix p0 'v') := (Atoi_error_iff _).1 ⟨e, h0⟩
    simp [n0]
  | ok mjr =>
    obtain ⟨a0, b0⟩ := (Atoi_eq_ok_iff _ _).1 h0
    cases h1 : Atoi p1 with
    | error e =>
      have n1 : ¬ isIntLiteral p1 := (Atoi_error_iff _).1 ⟨e, h1⟩
      simp [n1]
    | ok mnr =>
      obtain ⟨a1, b1⟩ := (Atoi_eq_ok_iff _ _).1 h1
      generalize (Split p2 '-').getD 0 [] = q
      cases h2 : Atoi q with
      | error e =>
        have n2 : ¬ isIntLiteral q := (Atoi_error_iff _).1 ⟨e, h2⟩
        simp [n2]
      | ok patch =>
        obtain ⟨a2, b2⟩ := (Atoi_eq_ok_iff _ _).1 h2
        simp only [Result.ok.injEq, Option.some.injEq, exists_eq', a0, a1, a2, and_self,
          reduceCtorEq, exists_false, not_true_eq_false, true_and]
        intro v hv
        subst hv
        exact ⟨b0.symm, b1.symm, b2.symm⟩

/-- Witness of C7 (amended) at the name `v2.1.0-rc1`. -/
theorem parseTagName_three_segments_witness :
    ((∃ v, parseTagName "v2.1.0-rc1".toList = .ok (some v)) ↔
      (isIntLiteral (TrimPrefix "v2".toList 'v') ∧ isIntLiteral "1".toList ∧
        isIntLiteral ((Split "0-rc1".toList '-').getD 0 []))) ∧
    ((∃ e, parseTagName "v2.1.0-rc1".toList = .error e) ↔
      ¬ (isIntLiteral (TrimPrefix "v2".toList 'v') ∧ isIntLiteral "1".toList ∧
        isIntLiteral ((Split "0-rc1".toList '-').getD 0 []))) ∧
    (∀ v, parseTagName "v2.1.0-rc1".toList = .ok (some v) →
      v.Major = integerValue (TrimPrefix "v2".toList 'v') ∧
        v.Minor = integerValue "1".toList ∧
        v.Patch = integerValue ((Split "0-rc1".toList '-').getD 0 [])) :=
  parseTagName_three_segments "v2.1.0-rc1".toList "v2".toList "1".toList "0-rc1".toList
    (by decide)

/-- Counterexample to C10: on a repository whose last commit message is `fix` followed by
a newline, the session starts with an empty buffer, and the key `right` leaves `fix`
followed by a space in the buffer, which is not the last commit message; a last commit
message of 200 letters leaves only its first 156 in the buffer. -/
theorem Update_right_not_exact :
    initialModel (repoWithMessage "fix\n".toList) (version.mk 0 0 1 []) =
      .ok (sessionWith "fix\n".toList []) ∧
    (∀ u : textinput.Model → Msg → textinput.Model × Option Unit,
      (bubbles u).Value (model.annotation (sessionWith "fix\n".toList [])) = [] ∧
      (bubbles u).Value (model.annotation (model.Update (bubbles u)
        (repoWithMessage "fix\n".toList) (sessionWith "fix\n".toList [])
        (.KeyMsg "right".toList)).1) = "fix ".toList) ∧
    "fix ".toList ≠ (sessionWith "fix\n".toList []).commitMessage ∧
    (∀ u : textinput.Model → Msg → textinput.Model × Option Unit,
      (bubbles u).Value (model.annotation (model.Update (bubbles u)
        (repoWithMessage (List.replicate 200 'a')) (sessionWith (List.replicate 200 'a') [])
        (.KeyMsg "right".toList)).1) = List.replicate 156 'a') ∧
    List.replicate 156 'a' ≠ (sessionWith (List.replicate 200 'a') []).commitMessage := by
  refine ⟨by decide, ?_, by decide, ?_, ?_⟩
  rotate_left 2
  · intro h
    have hl := congrArg List.length h
    simp [sessionWith] at hl
  · intro u
    refine ⟨rfl, ?_⟩
    rw [Update_right_empty_Value u (repoWithMessage "fix\n".toList)
      (sessionWith "fix\n".toList []) rfl rfl]
    decide
  · intro u
    rw [Update_right_empty_Value u (repoWithMessage (List.replicate 200 'a'))
      (sessionWith (List.replicate 200 'a') []) rfl rfl]
    show (Sanitize (List.replicate 200 'a')).take 156 = List.replicate 156 'a'
    rw [Sanitize_of_clean _ (by
      intro c hc
      rw [List.eq_of_mem_replicate hc]
      decide), List.take_replicate]
    rfl

/-- C10 (amended): in `model.Update`, for every session state (the text input has the
character limit 156 that `initialModel` gives it): when the key `right` arrives and the
annotation buffer is empty, the buffer becomes the last commit message as the text input
stores it, that is with every tab, carriage return and newline replaced by a space, the
other control characters and U+FFFD removed, and cut to its first 156 characters; this is
exactly the last commit message when it has none of these characters and at most 156
characters. When the key arrives and the buffer is non-empty, the buffer is not changed. -/
theorem Update_right_autofill {C : Type}
    (u : textinput.Model → Msg → textinput.Model × Option C) (repo : Repository)
    (m : model textinput.Model) (hlimit : m.annotation.CharLimit = 156) :
    ((bubbles u).Value m.annotation = [] →
      (bubbles u).Value (model.annotation
          (model.Update (bubbles u) repo m (.KeyMsg "right".toList)).1) =
        (Sanitize m.commitMessage).take 156 ∧
      ((∀ c ∈ m.commitMessage, c ≠ Char.ofNat 0xFFFD ∧ IsControl c = false) →
        m.commitMessage.length ≤ 156 →
        (bubbles u).Value (model.annotation
          (model.Update (bubbles u) repo m (.KeyMsg "right".toList)).1) = m.commitMessage)) ∧
    ((bubbles u).Value m.annotation ≠ [] →
      (bubbles u).Value (model.annotation
          (model.Update (bubbles u) repo m (.KeyMsg "right".toList)).1) =
        (bubbles u).Value m.annotation) := by
  constructor
  · intro hempty
    have hval := Update_right_empty_Value u repo m hlimit hempty
    refine ⟨hval, ?_⟩
    intro hclean hlen
    rw [hval, Sanitize_of_clean _ hclean, List.take_of_length_le hlen]
  · intro hne
    rw [Update_right_nonempty (bubbles u) repo m hne]

/-- Witness of C10 (amended): the session with last commit message `fix` and an empty
buffer, and the same session with the buffer `ab`. -/
theorem Update_right_autofill_witness :
    (∀ u : textinput.Model → Msg → textinput.Model × Option Unit,
      (bubbles u).Value (model.annotation (model.Update (bubbles u)
        (repoWithMessage "fix".toList) (sessionWith "fix".toList [])
        (.KeyMsg "right".toList)).1) = "fix".toList) ∧
    (∀ u : textinput.Model → Msg → textinput.Model × Option Unit,
      (bubbles u).Value (model.annotation (model.Update (bubbles u)
        (repoWithMessage "fix".toList) (sessionWith "fix".toList "ab".toList)
        (.KeyMsg "right".toList)).1) = "ab".toList) :=
  ⟨fun u => ((Update_right_autofill u (repoWithMessage "fix".toList)
      (sessionWith "fix".toList []) rfl).1 rfl).2 (by decide) (by decide),
   fun u => (Update_right_autofill u (repoWithMessage "fix".toList)
      (sessionWith "fix".toList "ab".toList) rfl).2 (show "ab".toList ≠ [] by decide)⟩

end GitVersion
